import Mathlib

/-!
Verification of the GBPlusTree on-page format and storage layer.

The Python sources (`gbplustree/const.py`, `entry.py`, `node.py`, `memory.py`)
are shallowly embedded: byte strings become `List Nat` (each element a byte),
Python `int.to_bytes` / `int.from_bytes` become explicit little-endian
conversions, Python `None`-able fields become `Option`, and any code path
that raises (`assert`, `OverflowError` from `to_bytes`, `ValueError` from
`bytes(negative)`, `TypeError` from `len(None)`) is modelled by returning
`none` from an `Option`-valued function.
-/

namespace GBPlusTree

/-! ### Constants (`gbplustree/const.py`) -/

def ENDIAN_LITTLE : Bool := true

def NODE_TYPE_BYTES : Nat := 1

def USED_PAGE_LENGTH_BYTES : Nat := 3

def PAGE_REFERENCE_BYTES : Nat := 4

def FRAME_TYPE_BYTES : Nat := 1

def USED_KEY_LENGTH_BYTES : Nat := 2

def USED_VALUE_LENGTH_BYTES : Nat := 2

def OTHER_BYTES : Nat := 4

/-- Model of `TreeConf` namedtuple.  The serializer slot is fixed to the repository's
`IntSerializer` (keys are little-endian integers of `key_size` bytes). -/
structure TreeConf where
  page_size : Nat
  order : Nat
  key_size : Nat
  value_size : Nat
deriving Repr, DecidableEq

/-! ### Byte-level helpers

`toBytesLE l n` models `n.to_bytes(l, 'little')` (its digit list), and
`toBytes? l n` additionally models the `OverflowError` raised when `n`
does not fit in `l` bytes.  `fromBytesLE` models `int.from_bytes(data,
'little')` for byte lists. -/

def toBytesLE : Nat → Nat → List Nat
  | 0, _ => []
  | l + 1, n => n % 256 :: toBytesLE l (n / 256)

def toBytes? (l n : Nat) : Option (List Nat) :=
  if n < 256 ^ l then some (toBytesLE l n) else none

def fromBytesLE : List Nat → Nat
  | [] => 0
  | b :: t => b + 256 * fromBytesLE t

/-- Model of `data[a:b]` for Python byte strings. -/
def pySlice (data : List Nat) (a b : Nat) : List Nat :=
  (data.drop a).take (b - a)

theorem toBytesLE_length (l n : Nat) : (toBytesLE l n).length = l := by
  induction l generalizing n with
  | zero => rfl
  | succ l ih => simp [toBytesLE, ih]

theorem fromBytesLE_toBytesLE {l n : Nat} (h : n < 256 ^ l) :
    fromBytesLE (toBytesLE l n) = n := by
  induction l generalizing n with
  | zero =>
    simp [pow_zero] at h
    simp [toBytesLE, fromBytesLE, h]
  | succ l ih =>
    have hdiv : n / 256 < 256 ^ l := by
      rw [Nat.div_lt_iff_lt_mul (by norm_num)]
      calc n < 256 ^ (l + 1) := h
        _ = 256 ^ l * 256 := by ring
    simp only [toBytesLE, fromBytesLE, ih hdiv]
    omega

theorem toBytes?_eq_some {l n : Nat} (h : n < 256 ^ l) :
    toBytes? l n = some (toBytesLE l n) := by
  simp [toBytes?, h]

theorem toBytes?_isSome_iff {l n : Nat} :
    (toBytes? l n).isSome ↔ n < 256 ^ l := by
  unfold toBytes?
  split <;> simp_all

/-- Dropping past an initial segment of known length. -/
theorem drop_append_len {α : Type} (xs ys : List α) (m : Nat) :
    (xs ++ ys).drop (xs.length + m) = ys.drop m := by
  induction xs with
  | nil => simp
  | cons x xs ih => simp [Nat.succ_add, ih]

theorem take_append_len {α : Type} (xs ys : List α) :
    (xs ++ ys).take xs.length = xs := by
  induction xs with
  | nil => simp
  | cons x xs ih => simp [ih]

theorem pySlice_block (pre xs ys : List Nat) (a b : Nat)
    (hpre : pre.length = a) (hxs : xs.length = b - a) (hab : a ≤ b) :
    pySlice (pre ++ xs ++ ys) a b = xs := by
  subst hpre
  unfold pySlice
  rw [List.append_assoc, ← Nat.add_zero pre.length, drop_append_len,
    List.drop_zero, Nat.add_zero, ← hxs, take_append_len]

/-! ### `IntSerializer` (`gbplustree/serializer.py`)

`serialize(obj, key_size) = obj.to_bytes(key_size, ENDIAN)` and
`deserialize(data) = int.from_bytes(data, ENDIAN)`. -/

def IntSerializer.serialize (obj : Nat) (key_size : Nat) : Option (List Nat) :=
  toBytes? key_size obj

def IntSerializer.deserialize (data : List Nat) : Nat :=
  fromBytesLE data

/-! ### Entries (`gbplustree/entry.py`)

A `Record` holds `key`, `value` (a byte string or `None`) and
`overflow_page` (a page id or `None`); a `Reference` holds `key`,
`before` and `after` (page ids, `None` until assigned).  Keys are taken
to be the integers handled by `IntSerializer`. -/

structure Record where
  key : Nat
  value : Option (List Nat) := none
  overflow_page : Option Nat := none
deriving Repr, DecidableEq

/-- Fixed serialized length of a `Record` (`Record.__init__`). -/
def Record.length (conf : TreeConf) : Nat :=
  USED_KEY_LENGTH_BYTES + conf.key_size
    + USED_VALUE_LENGTH_BYTES + conf.value_size
    + PAGE_REFERENCE_BYTES

/-- Model of `Record.dump`.  Failure (`none`) covers the explicit
`assert self.value is None or self.overflow_page is None`, the
`OverflowError` from any `to_bytes`, the `TypeError` from `len(None)`
when neither field is set, and the `ValueError` from negative padding. -/
def Record.dump (conf : TreeConf) (r : Record) : Option (List Nat) := do
  if r.value.isSome && r.overflow_page.isSome then none else
  let key_as_bytes ← IntSerializer.serialize r.key conf.key_size
  let used_key_length := key_as_bytes.length
  let overflow_page := r.overflow_page.getD 0
  let value ← if overflow_page ≠ 0 then some ([] : List Nat) else r.value
  let used_value_length := value.length
  let uklBytes ← toBytes? USED_KEY_LENGTH_BYTES used_key_length
  let keyPad ←
    if used_key_length ≤ conf.key_size then
      some (List.replicate (conf.key_size - used_key_length) 0)
    else none
  let uvlBytes ← toBytes? USED_VALUE_LENGTH_BYTES used_value_length
  let valuePad ←
    if used_value_length ≤ conf.value_size then
      some (List.replicate (conf.value_size - used_value_length) 0)
    else none
  let ofBytes ← toBytes? PAGE_REFERENCE_BYTES overflow_page
  return uklBytes ++ key_as_bytes ++ keyPad
    ++ uvlBytes ++ value ++ valuePad ++ ofBytes

/-- Model of `Record.load`.  The `assert` statements become `none`. -/
def Record.load (conf : TreeConf) (data : List Nat) : Option Record :=
  if data.length ≠ Record.length conf then none else
  let end_used_key_length := USED_KEY_LENGTH_BYTES
  let used_key_length := fromBytesLE (pySlice data 0 end_used_key_length)
  if ¬ used_key_length ≤ conf.key_size then none else
  let end_key := end_used_key_length + used_key_length
  let key := IntSerializer.deserialize (pySlice data end_used_key_length end_key)
  let start_used_value_length := end_used_key_length + conf.key_size
  let end_used_value_length := start_used_value_length + USED_VALUE_LENGTH_BYTES
  let used_value_length :=
    fromBytesLE (pySlice data start_used_value_length end_used_value_length)
  if ¬ used_value_length ≤ conf.value_size then none else
  let end_value := end_used_value_length + used_value_length
  let start_overflow := end_used_value_length + conf.value_size
  let end_overflow := start_overflow + PAGE_REFERENCE_BYTES
  let overflow_page := fromBytesLE (pySlice data start_overflow end_overflow)
  if overflow_page ≠ 0 then
    some { key := key, value := none, overflow_page := some overflow_page }
  else
    some { key := key,
           value := some (pySlice data end_used_value_length end_value),
           overflow_page := none }

structure Reference where
  key : Nat
  before : Option Nat := none
  after : Option Nat := none
deriving Repr, DecidableEq

/-- Fixed serialized length of a `Reference` (`Reference.__init__`). -/
def Reference.length (conf : TreeConf) : Nat :=
  2 * PAGE_REFERENCE_BYTES + USED_KEY_LENGTH_BYTES + conf.key_size

/-- Model of `Reference.dump`; the two `isinstance(…, int)` asserts fail when
`before`/`after` are still `None`. -/
def Reference.dump (conf : TreeConf) (r : Reference) : Option (List Nat) := do
  let b ← r.before
  let a ← r.after
  let key_as_bytes ← IntSerializer.serialize r.key conf.key_size
  let used_key_length := key_as_bytes.length
  let beforeBytes ← toBytes? PAGE_REFERENCE_BYTES b
  let uklBytes ← toBytes? USED_VALUE_LENGTH_BYTES used_key_length
  let keyPad ←
    if used_key_length ≤ conf.key_size then
      some (List.replicate (conf.key_size - used_key_length) 0)
    else none
  let afterBytes ← toBytes? PAGE_REFERENCE_BYTES a
  return beforeBytes ++ uklBytes ++ key_as_bytes ++ keyPad ++ afterBytes

/-- Model of `Reference.load`. -/
def Reference.load (conf : TreeConf) (data : List Nat) : Option Reference :=
  if data.length ≠ Reference.length conf then none else
  let end_before := PAGE_REFERENCE_BYTES
  let before := fromBytesLE (pySlice data 0 end_before)
  let end_used_key_length := end_before + USED_KEY_LENGTH_BYTES
  let used_key_length := fromBytesLE (pySlice data end_before end_used_key_length)
  if ¬ used_key_length ≤ conf.key_size then none else
  let end_key := end_used_key_length + used_key_length
  let key := IntSerializer.deserialize (pySlice data end_used_key_length end_key)
  let start_after := end_used_key_length + conf.key_size
  let end_after := start_after + PAGE_REFERENCE_BYTES
  let after := fromBytesLE (pySlice data start_after end_after)
  some { key := key, before := some before, after := some after }

/-! ### Entry round-trip lemmas -/

theorem Record.dump_value_eq (conf : TreeConf) (k : Nat) (v : List Nat)
    (hk : k < 256 ^ conf.key_size)
    (hks : conf.key_size < 256 ^ USED_KEY_LENGTH_BYTES)
    (hv : v.length ≤ conf.value_size)
    (hvl : v.length < 256 ^ USED_VALUE_LENGTH_BYTES) :
    Record.dump conf { key := k, value := some v, overflow_page := none } =
      some (toBytesLE USED_KEY_LENGTH_BYTES conf.key_size
        ++ toBytesLE conf.key_size k
        ++ toBytesLE USED_VALUE_LENGTH_BYTES v.length
        ++ v
        ++ List.replicate (conf.value_size - v.length) 0
        ++ toBytesLE PAGE_REFERENCE_BYTES 0) := by
  simp [Record.dump, IntSerializer.serialize, toBytes?_eq_some, hk, hks, hv,
    hvl, toBytesLE_length, toBytes?]

theorem Record.dump_overflow_eq (conf : TreeConf) (k p : Nat)
    (hk : k < 256 ^ conf.key_size)
    (hks : conf.key_size < 256 ^ USED_KEY_LENGTH_BYTES)
    (hp : p < 256 ^ PAGE_REFERENCE_BYTES) (hp0 : p ≠ 0) :
    Record.dump conf { key := k, value := none, overflow_page := some p } =
      some (toBytesLE USED_KEY_LENGTH_BYTES conf.key_size
        ++ toBytesLE conf.key_size k
        ++ toBytesLE USED_VALUE_LENGTH_BYTES 0
        ++ List.replicate conf.value_size 0
        ++ toBytesLE PAGE_REFERENCE_BYTES p) := by
  simp [Record.dump, IntSerializer.serialize, toBytes?_eq_some, hk, hks, hp,
    hp0, toBytesLE_length, toBytes?, Nat.pos_of_ne_zero]

theorem Record.load_dump_value (conf : TreeConf) (k : Nat) (v : List Nat)
    (hk : k < 256 ^ conf.key_size)
    (hks : conf.key_size < 256 ^ USED_KEY_LENGTH_BYTES)
    (hv : v.length ≤ conf.value_size)
    (hvl : v.length < 256 ^ USED_VALUE_LENGTH_BYTES) :
    Record.load conf (toBytesLE USED_KEY_LENGTH_BYTES conf.key_size
        ++ toBytesLE conf.key_size k
        ++ toBytesLE USED_VALUE_LENGTH_BYTES v.length
        ++ v
        ++ List.replicate (conf.value_size - v.length) 0
        ++ toBytesLE PAGE_REFERENCE_BYTES 0) =
      some { key := k, value := some v, overflow_page := none } := by
  set A := toBytesLE USED_KEY_LENGTH_BYTES conf.key_size with hA
  set B := toBytesLE conf.key_size k with hB
  set D := toBytesLE USED_VALUE_LENGTH_BYTES v.length with hD
  set F := List.replicate (conf.value_size - v.length) 0 with hF
  set G := toBytesLE PAGE_REFERENCE_BYTES 0 with hG
  have s0 : pySlice (A ++ B ++ D ++ v ++ F ++ G) 0 USED_KEY_LENGTH_BYTES = A := by
    rw [show A ++ B ++ D ++ v ++ F ++ G
        = ([] : List Nat) ++ A ++ (B ++ D ++ v ++ F ++ G) by simp]
    exact pySlice_block _ _ _ _ _ (by simp)
      (by simp [hA, toBytesLE_length]) (by simp [USED_KEY_LENGTH_BYTES])
  have s1 : pySlice (A ++ B ++ D ++ v ++ F ++ G) USED_KEY_LENGTH_BYTES
      (USED_KEY_LENGTH_BYTES + conf.key_size) = B := by
    rw [show A ++ B ++ D ++ v ++ F ++ G = A ++ B ++ (D ++ v ++ F ++ G) by simp]
    exact pySlice_block _ _ _ _ _ (by simp [hA, toBytesLE_length])
      (by simp [hB, toBytesLE_length]) (by omega)
  have s2 : pySlice (A ++ B ++ D ++ v ++ F ++ G)
      (USED_KEY_LENGTH_BYTES + conf.key_size)
      (USED_KEY_LENGTH_BYTES + conf.key_size + USED_VALUE_LENGTH_BYTES) = D := by
    rw [show A ++ B ++ D ++ v ++ F ++ G
        = (A ++ B) ++ D ++ (v ++ F ++ G) by simp]
    exact pySlice_block _ _ _ _ _ (by simp [hA, hB, toBytesLE_length])
      (by simp [hD, toBytesLE_length]) (by omega)
  have s3 : pySlice (A ++ B ++ D ++ v ++ F ++ G)
      (USED_KEY_LENGTH_BYTES + conf.key_size + USED_VALUE_LENGTH_BYTES)
      (USED_KEY_LENGTH_BYTES + conf.key_size + USED_VALUE_LENGTH_BYTES
        + v.length) = v := by
    rw [show A ++ B ++ D ++ v ++ F ++ G
        = (A ++ B ++ D) ++ v ++ (F ++ G) by simp]
    exact pySlice_block _ _ _ _ _
      (by simp [hA, hB, hD, toBytesLE_length, USED_KEY_LENGTH_BYTES,
        USED_VALUE_LENGTH_BYTES] <;> omega)
      (by omega) (by omega)
  have s4 : pySlice (A ++ B ++ D ++ v ++ F ++ G)
      (USED_KEY_LENGTH_BYTES + conf.key_size + USED_VALUE_LENGTH_BYTES
        + conf.value_size)
      (USED_KEY_LENGTH_BYTES + conf.key_size + USED_VALUE_LENGTH_BYTES
        + conf.value_size + PAGE_REFERENCE_BYTES) = G := by
    rw [show A ++ B ++ D ++ v ++ F ++ G
        = (A ++ B ++ D ++ v ++ F) ++ G ++ ([] : List Nat) by simp]
    exact pySlice_block _ _ _ _ _
      (by simp [hA, hB, hD, hF, toBytesLE_length, USED_KEY_LENGTH_BYTES,
        USED_VALUE_LENGTH_BYTES] <;> omega)
      (by simp [hG, toBytesLE_length] <;> omega) (by omega)
  have hlen : (A ++ B ++ D ++ v ++ F ++ G).length = Record.length conf := by
    simp [hA, hB, hD, hF, hG, toBytesLE_length, Record.length,
      USED_KEY_LENGTH_BYTES, USED_VALUE_LENGTH_BYTES, PAGE_REFERENCE_BYTES]
      <;> omega
  rw [Record.load, if_neg (by rw [hlen]; simp)]
  simp only [s0, s1, s2, s3, s4, hA, hB, hD, hG,
    fromBytesLE_toBytesLE hks, fromBytesLE_toBytesLE hvl,
    fromBytesLE_toBytesLE hk,
    fromBytesLE_toBytesLE (show (0 : Nat) < 256 ^ PAGE_REFERENCE_BYTES by
      positivity),
    IntSerializer.deserialize, le_refl, not_true, if_false]
  simp [hv]

theorem Record.load_dump_overflow (conf : TreeConf) (k p : Nat)
    (hk : k < 256 ^ conf.key_size)
    (hks : conf.key_size < 256 ^ USED_KEY_LENGTH_BYTES)
    (hp : p < 256 ^ PAGE_REFERENCE_BYTES) (hp0 : p ≠ 0) :
    Record.load conf (toBytesLE USED_KEY_LENGTH_BYTES conf.key_size
        ++ toBytesLE conf.key_size k
        ++ toBytesLE USED_VALUE_LENGTH_BYTES 0
        ++ List.replicate conf.value_size 0
        ++ toBytesLE PAGE_REFERENCE_BYTES p) =
      some { key := k, value := none, overflow_page := some p } := by
  set A := toBytesLE USED_KEY_LENGTH_BYTES conf.key_size with hA
  set B := toBytesLE conf.key_size k with hB
  set D := toBytesLE USED_VALUE_LENGTH_BYTES 0 with hD
  set F := List.replicate conf.value_size 0 with hF
  set G := toBytesLE PAGE_REFERENCE_BYTES p with hG
  have s0 : pySlice (A ++ B ++ D ++ F ++ G) 0 USED_KEY_LENGTH_BYTES = A := by
    rw [show A ++ B ++ D ++ F ++ G
        = ([] : List Nat) ++ A ++ (B ++ D ++ F ++ G) by simp]
    exact pySlice_block _ _ _ _ _ (by simp)
      (by simp [hA, toBytesLE_length]) (by simp [USED_KEY_LENGTH_BYTES])
  have s1 : pySlice (A ++ B ++ D ++ F ++ G) USED_KEY_LENGTH_BYTES
      (USED_KEY_LENGTH_BYTES + conf.key_size) = B := by
    rw [show A ++ B ++ D ++ F ++ G = A ++ B ++ (D ++ F ++ G) by simp]
    exact pySlice_block _ _ _ _ _ (by simp [hA, toBytesLE_length])
      (by simp [hB, toBytesLE_length]) (by omega)
  have s2 : pySlice (A ++ B ++ D ++ F ++ G)
      (USED_KEY_LENGTH_BYTES + conf.key_size)
      (USED_KEY_LENGTH_BYTES + conf.key_size + USED_VALUE_LENGTH_BYTES) = D := by
    rw [show A ++ B ++ D ++ F ++ G = (A ++ B) ++ D ++ (F ++ G) by simp]
    exact pySlice_block _ _ _ _ _ (by simp [hA, hB, toBytesLE_length])
      (by simp [hD, toBytesLE_length]) (by omega)
  have s4 : pySlice (A ++ B ++ D ++ F ++ G)
      (USED_KEY_LENGTH_BYTES + conf.key_size + USED_VALUE_LENGTH_BYTES
        + conf.value_size)
      (USED_KEY_LENGTH_BYTES + conf.key_size + USED_VALUE_LENGTH_BYTES
        + conf.value_size + PAGE_REFERENCE_BYTES) = G := by
    rw [show A ++ B ++ D ++ F ++ G
        = (A ++ B ++ D ++ F) ++ G ++ ([] : List Nat) by simp]
    exact pySlice_block _ _ _ _ _
      (by simp [hA, hB, hD, hF, toBytesLE_length, USED_KEY_LENGTH_BYTES,
        USED_VALUE_LENGTH_BYTES] <;> omega)
      (by simp [hG, toBytesLE_length] <;> omega) (by omega)
  have hlen : (A ++ B ++ D ++ F ++ G).length = Record.length conf := by
    simp [hA, hB, hD, hF, hG, toBytesLE_length, Record.length,
      USED_KEY_LENGTH_BYTES, USED_VALUE_LENGTH_BYTES, PAGE_REFERENCE_BYTES]
      <;> omega
  rw [Record.load, if_neg (by rw [hlen]; simp)]
  simp only [s0, s1, s2, s4, hA, hD, hG,
    fromBytesLE_toBytesLE hks,
    fromBytesLE_toBytesLE (show (0 : Nat) < 256 ^ USED_VALUE_LENGTH_BYTES by
      positivity),
    fromBytesLE_toBytesLE hp, le_refl, not_true, if_false]
  simp only [hB, IntSerializer.deserialize, fromBytesLE_toBytesLE hk]
  simp [hp0]

/-- Inversion: whenever `Record.dump` succeeds, the produced bytes load
back to the very same record, and their length is the record's fixed
entry length. -/
theorem Record.roundtrip_record (conf : TreeConf) (r : Record)
    (d : List Nat) (h : Record.dump conf r = some d) :
    Record.load conf d = some r ∧ d.length = Record.length conf := by
  obtain ⟨k, v?, p?⟩ := r
  by_cases hk : k < 256 ^ conf.key_size
  · by_cases hks : conf.key_size < 256 ^ USED_KEY_LENGTH_BYTES
    · match v?, p? with
      | some v, some p =>
        simp [Record.dump] at h
      | none, none =>
        simp [Record.dump, IntSerializer.serialize, toBytes?, hk] at h
      | some v, none =>
        by_cases hv : v.length ≤ conf.value_size
        · by_cases hvl : v.length < 256 ^ USED_VALUE_LENGTH_BYTES
          · rw [Record.dump_value_eq conf k v hk hks hv hvl] at h
            obtain rfl : _ = d := Option.some.inj h
            refine ⟨Record.load_dump_value conf k v hk hks hv hvl, ?_⟩
            simp [toBytesLE_length, Record.length, USED_KEY_LENGTH_BYTES,
              USED_VALUE_LENGTH_BYTES, PAGE_REFERENCE_BYTES]
            omega
          · simp [Record.dump, IntSerializer.serialize, toBytes?, hk, hks,
              hv, hvl, toBytesLE_length] at h
        · simp [Record.dump, IntSerializer.serialize, toBytes?, hk, hks,
            hv, toBytesLE_length] at h
      | none, some p =>
        by_cases hp0 : p = 0
        · subst hp0
          simp [Record.dump, IntSerializer.serialize, toBytes?, hk] at h
        · by_cases hp : p < 256 ^ PAGE_REFERENCE_BYTES
          · rw [Record.dump_overflow_eq conf k p hk hks hp hp0] at h
            obtain rfl : _ = d := Option.some.inj h
            refine ⟨Record.load_dump_overflow conf k p hk hks hp hp0, ?_⟩
            simp [toBytesLE_length, Record.length, USED_KEY_LENGTH_BYTES,
              USED_VALUE_LENGTH_BYTES, PAGE_REFERENCE_BYTES]
            omega
          · simp [Record.dump, IntSerializer.serialize, toBytes?, hk, hks,
              hp0, hp, toBytesLE_length] at h
    · simp [Record.dump, IntSerializer.serialize, toBytes?, hk, hks,
        toBytesLE_length] at h
  · simp [Record.dump, IntSerializer.serialize, toBytes?, hk] at h

theorem Reference.dump_eq (conf : TreeConf) (k b a : Nat)
    (hk : k < 256 ^ conf.key_size)
    (hks : conf.key_size < 256 ^ USED_KEY_LENGTH_BYTES)
    (hb : b < 256 ^ PAGE_REFERENCE_BYTES)
    (ha : a < 256 ^ PAGE_REFERENCE_BYTES) :
    Reference.dump conf { key := k, before := some b, after := some a } =
      some (toBytesLE PAGE_REFERENCE_BYTES b
        ++ toBytesLE USED_VALUE_LENGTH_BYTES conf.key_size
        ++ toBytesLE conf.key_size k
        ++ toBytesLE PAGE_REFERENCE_BYTES a) := by
  have hks2 : conf.key_size < 256 ^ USED_VALUE_LENGTH_BYTES := by
    simpa [USED_KEY_LENGTH_BYTES, USED_VALUE_LENGTH_BYTES] using hks
  simp [Reference.dump, IntSerializer.serialize, toBytes?_eq_some, hk, hks2,
    hb, ha, toBytesLE_length, toBytes?]

theorem Reference.load_dump_refs (conf : TreeConf) (k b a : Nat)
    (hk : k < 256 ^ conf.key_size)
    (hks : conf.key_size < 256 ^ USED_KEY_LENGTH_BYTES)
    (hb : b < 256 ^ PAGE_REFERENCE_BYTES)
    (ha : a < 256 ^ PAGE_REFERENCE_BYTES) :
    Reference.load conf (toBytesLE PAGE_REFERENCE_BYTES b
        ++ toBytesLE USED_VALUE_LENGTH_BYTES conf.key_size
        ++ toBytesLE conf.key_size k
        ++ toBytesLE PAGE_REFERENCE_BYTES a) =
      some { key := k, before := some b, after := some a } := by
  have hks2 : conf.key_size < 256 ^ USED_VALUE_LENGTH_BYTES := by
    simpa [USED_KEY_LENGTH_BYTES, USED_VALUE_LENGTH_BYTES] using hks
  set A := toBytesLE PAGE_REFERENCE_BYTES b with hA
  set B := toBytesLE USED_VALUE_LENGTH_BYTES conf.key_size with hB
  set C := toBytesLE conf.key_size k with hC
  set E := toBytesLE PAGE_REFERENCE_BYTES a with hE
  have s0 : pySlice (A ++ B ++ C ++ E) 0 PAGE_REFERENCE_BYTES = A := by
    rw [show A ++ B ++ C ++ E = ([] : List Nat) ++ A ++ (B ++ C ++ E) by simp]
    exact pySlice_block _ _ _ _ _ (by simp)
      (by simp [hA, toBytesLE_length]) (by simp [PAGE_REFERENCE_BYTES])
  have s1 : pySlice (A ++ B ++ C ++ E) PAGE_REFERENCE_BYTES
      (PAGE_REFERENCE_BYTES + USED_KEY_LENGTH_BYTES) = B := by
    rw [show A ++ B ++ C ++ E = A ++ B ++ (C ++ E) by simp]
    exact pySlice_block _ _ _ _ _ (by simp [hA, toBytesLE_length])
      (by simp [hB, toBytesLE_length, USED_KEY_LENGTH_BYTES,
        USED_VALUE_LENGTH_BYTES, PAGE_REFERENCE_BYTES]) (by omega)
  have s2 : pySlice (A ++ B ++ C ++ E)
      (PAGE_REFERENCE_BYTES + USED_KEY_LENGTH_BYTES)
      (PAGE_REFERENCE_BYTES + USED_KEY_LENGTH_BYTES + conf.key_size) = C := by
    rw [show A ++ B ++ C ++ E = (A ++ B) ++ C ++ E by simp]
    exact pySlice_block _ _ _ _ _
      (by simp [hA, hB, toBytesLE_length, USED_KEY_LENGTH_BYTES,
        USED_VALUE_LENGTH_BYTES, PAGE_REFERENCE_BYTES])
      (by simp [hC, toBytesLE_length]) (by omega)
  have s3 : pySlice (A ++ B ++ C ++ E)
      (PAGE_REFERENCE_BYTES + USED_KEY_LENGTH_BYTES + conf.key_size)
      (PAGE_REFERENCE_BYTES + USED_KEY_LENGTH_BYTES + conf.key_size
        + PAGE_REFERENCE_BYTES) = E := by
    rw [show A ++ B ++ C ++ E = (A ++ B ++ C) ++ E ++ ([] : List Nat) by simp]
    exact pySlice_block _ _ _ _ _
      (by simp [hA, hB, hC, toBytesLE_length, USED_KEY_LENGTH_BYTES,
        USED_VALUE_LENGTH_BYTES, PAGE_REFERENCE_BYTES] <;> omega)
      (by simp [hE, toBytesLE_length] <;> omega) (by omega)
  have hlen : (A ++ B ++ C ++ E).length = Reference.length conf := by
    simp [hA, hB, hC, hE, toBytesLE_length, Reference.length,
      USED_KEY_LENGTH_BYTES, USED_VALUE_LENGTH_BYTES, PAGE_REFERENCE_BYTES]
      <;> omega
  rw [Reference.load, if_neg (by rw [hlen]; simp)]
  simp only [s0, s1, s2, s3, hA, hB, hC, hE,
    fromBytesLE_toBytesLE hks2, fromBytesLE_toBytesLE hb,
    fromBytesLE_toBytesLE ha, fromBytesLE_toBytesLE hk,
    IntSerializer.deserialize, le_refl, not_true, if_false]

/-- Inversion: whenever `Reference.dump` succeeds, the produced bytes load
back to the very same reference, with the fixed entry length. -/
theorem Reference.roundtrip_reference (conf : TreeConf) (r : Reference)
    (d : List Nat) (h : Reference.dump conf r = some d) :
    Reference.load conf d = some r ∧ d.length = Reference.length conf := by
  obtain ⟨k, b?, a?⟩ := r
  match b?, a? with
  | none, _ => simp [Reference.dump] at h
  | some b, none => simp [Reference.dump] at h
  | some b, some a =>
    by_cases hk : k < 256 ^ conf.key_size
    · by_cases hks : conf.key_size < 256 ^ USED_KEY_LENGTH_BYTES
      · have hks2 : conf.key_size < 256 ^ USED_VALUE_LENGTH_BYTES := by
          simpa [USED_KEY_LENGTH_BYTES, USED_VALUE_LENGTH_BYTES] using hks
        by_cases hb : b < 256 ^ PAGE_REFERENCE_BYTES
        · by_cases ha : a < 256 ^ PAGE_REFERENCE_BYTES
          · rw [Reference.dump_eq conf k b a hk hks hb ha] at h
            obtain rfl : _ = d := Option.some.inj h
            refine ⟨Reference.load_dump_refs conf k b a hk hks hb ha, ?_⟩
            simp [toBytesLE_length, Reference.length, USED_KEY_LENGTH_BYTES,
              USED_VALUE_LENGTH_BYTES, PAGE_REFERENCE_BYTES]
            omega
          · simp [Reference.dump, IntSerializer.serialize, toBytes?, hk, hks2,
              hb, ha, toBytesLE_length] at h
        · simp [Reference.dump, IntSerializer.serialize, toBytes?, hk, hks2,
            hb, toBytesLE_length] at h
      · have hks2 : ¬ conf.key_size < 256 ^ USED_VALUE_LENGTH_BYTES := by
          simpa [USED_KEY_LENGTH_BYTES, USED_VALUE_LENGTH_BYTES] using hks
        simp [Reference.dump, IntSerializer.serialize, toBytes?, hk, hks2,
          toBytesLE_length] at h
    · simp [Reference.dump, IntSerializer.serialize, toBytes?, hk] at h

/-- The `Record` invariant: exactly one of `value` / `overflow_page` is set. -/
def Record.exactlyOne (r : Record) : Prop :=
  (r.value.isSome ∧ r.overflow_page = none) ∨
    (r.value = none ∧ r.overflow_page.isSome)

instance (r : Record) : Decidable (Record.exactlyOne r) := by
  unfold Record.exactlyOne
  infer_instance

/-- Shared concrete configuration used by the witness theorems
(`page_size = 64`, `order = 4`, `key_size = 2`, `value_size = 3`). -/
def confW : TreeConf :=
  { page_size := 64, order := 4, key_size := 2, value_size := 3 }

/-- C1: for every Record with key and value within the configured
`key_size`/`value_size` bounds, loading the bytes produced by `dump()`
yields a Record equal to the original (key, value, overflow_page all
recovered); the same round-trip holds for every Reference with integer
before/after page ids (fitting the 4-byte page-reference slot). -/
theorem C1_record_reference_roundtrip (conf : TreeConf) (k : Nat)
    (v : List Nat) (k2 b a : Nat)
    (hks : conf.key_size < 256 ^ USED_KEY_LENGTH_BYTES)
    (hvs : conf.value_size < 256 ^ USED_VALUE_LENGTH_BYTES)
    (hk : k < 256 ^ conf.key_size)
    (hv : v.length ≤ conf.value_size)
    (hk2 : k2 < 256 ^ conf.key_size)
    (hb : b < 256 ^ PAGE_REFERENCE_BYTES)
    (ha : a < 256 ^ PAGE_REFERENCE_BYTES) :
    (Record.dump conf { key := k, value := some v, overflow_page := none }).bind
        (Record.load conf)
      = some { key := k, value := some v, overflow_page := none } ∧
    (Reference.dump conf { key := k2, before := some b, after := some a }).bind
        (Reference.load conf)
      = some { key := k2, before := some b, after := some a } := by
  constructor
  · rw [Record.dump_value_eq conf k v hk hks hv (lt_of_le_of_lt hv hvs),
      Option.some_bind]
    exact Record.load_dump_value conf k v hk hks hv (lt_of_le_of_lt hv hvs)
  · rw [Reference.dump_eq conf k2 b a hk2 hks hb ha, Option.some_bind]
    exact Reference.load_dump_refs conf k2 b a hk2 hks hb ha

/-- Witness for C1 at a concrete configuration and concrete entries. -/
theorem C1_record_reference_roundtrip_witness :
    (Record.dump confW
        { key := 300, value := some [7, 8], overflow_page := none }).bind
        (Record.load confW)
      = some { key := 300, value := some [7, 8], overflow_page := none } ∧
    (Reference.dump confW { key := 5, before := some 1, after := some 2 }).bind
        (Reference.load confW)
      = some { key := 5, before := some 1, after := some 2 } :=
  C1_record_reference_roundtrip confW 300 [7, 8] 5 1 2 (by decide) (by decide)
    (by decide) (by decide) (by decide) (by decide) (by decide)

/-- C2: exactly one of `value` and `overflow_page` is ever set:
`Record.dump` fails whenever the exactly-one precondition is violated
(both set trips the assertion; neither set makes `len(None)` raise), and
`Record.load` always establishes the invariant — a nonzero stored
overflow page yields `value = None`, a zero one yields
`overflow_page = None` with an inline value. -/
theorem C2_record_exactly_one (conf : TreeConf) (r : Record) :
    (¬ Record.exactlyOne r → Record.dump conf r = none) ∧
    (∀ data r', Record.load conf data = some r' → Record.exactlyOne r') := by
  constructor
  · intro hbad
    obtain ⟨k, v?, p?⟩ := r
    match v?, p? with
    | some v, some p => simp [Record.dump]
    | none, none =>
      rcases htb : IntSerializer.serialize k conf.key_size with _ | kb <;>
        simp [Record.dump, htb]
    | some v, none => exact absurd (Or.inl (by simp)) hbad
    | none, some p => exact absurd (Or.inr (by simp)) hbad
  · intro data r' hload
    simp only [Record.load] at hload
    split at hload
    · exact absurd hload (by simp)
    · split at hload
      · exact absurd hload (by simp)
      · split at hload
        · exact absurd hload (by simp)
        · split at hload
          · obtain rfl : _ = r' := Option.some.inj hload
            exact Or.inr (by simp)
          · obtain rfl : _ = r' := Option.some.inj hload
            exact Or.inl (by simp)

/-- Witness for C2: a record with both fields set fails to dump, and a
concrete 13-byte buffer loads to a record satisfying the invariant. -/
theorem C2_record_exactly_one_witness :
    Record.dump confW
        { key := 1, value := some [2], overflow_page := some 3 } = none ∧
    Record.exactlyOne { key := 9, value := some [8], overflow_page := none } :=
  ⟨(C2_record_exactly_one confW
      { key := 1, value := some [2], overflow_page := some 3 }).1 (by decide),
   (C2_record_exactly_one confW
      { key := 1, value := some [2], overflow_page := some 3 }).2
      [1, 0, 9, 0, 1, 0, 8, 0, 0, 0, 0, 0, 0]
      { key := 9, value := some [8], overflow_page := none } (by decide)⟩

/-! ### Nodes (`gbplustree/node.py`)

A node is an ordered list of entries plus page metadata.  The concrete
subclasses fix the entry class (`Record` for `LonelyRootNode`/`LeafNode`,
`Reference` for `RootNode`/`InternalNode`), the node type byte and the
fan-out bounds. -/

inductive NEntry where
  | record (r : Record)
  | reference (rf : Reference)
deriving Repr, DecidableEq

def NEntry.dump (conf : TreeConf) : NEntry → Option (List Nat)
  | .record r => Record.dump conf r
  | .reference rf => Reference.dump conf rf

/-- The `_entry_class` attribute of a node subclass. -/
inductive EntryClass where
  | record
  | reference
deriving Repr, DecidableEq

/-- Model of `self._entry_class(self._tree_conf).length` of `Node.load`. -/
def EntryClass.entryLength (conf : TreeConf) : EntryClass → Nat
  | .record => Record.length conf
  | .reference => Reference.length conf

/-- Model of `self._entry_class(self._tree_conf, data=entry_data)` of `Node.load`. -/
def EntryClass.loadEntry (conf : TreeConf) :
    EntryClass → List Nat → Option NEntry
  | .record, d => (Record.load conf d).map NEntry.record
  | .reference, d => (Reference.load conf d).map NEntry.reference

/-- Whether an entry belongs to an entry class. -/
def NEntry.hasClass : NEntry → EntryClass → Bool
  | .record _, .record => true
  | .reference _, .reference => true
  | _, _ => false

/-- Sequentially encode/decode a list, failing if any element fails
(the Python `for` loops in `Node.dump` / `Node.load`). -/
def mapOption {α β : Type} (f : α → Option β) : List α → Option (List β)
  | [] => some []
  | a :: l => do
    let b ← f a
    let bs ← mapOption f l
    pure (b :: bs)

structure Node where
  node_type_int : Nat
  entries : List NEntry := []
  page : Option Nat := none
  next_page : Option Nat := none
deriving Repr, DecidableEq

/-- Model of `Node.dump`: entry bytes are concatenated, `used_length` is their
total plus 4, the 8-byte header `[node_type:1][used_length:3][next_page:4]`
is prepended and the page is zero-padded to `page_size`.  The two
`assert`s (`4 <= used_length < page_size` and `padding >= 0`) and any
`to_bytes` overflow become `none`. -/
def Node.dump (conf : TreeConf) (n : Node) : Option (List Nat) :=
  (mapOption (NEntry.dump conf) n.entries).bind fun dumped =>
  let data := dumped.join
  let used_length := data.length + 4
  if ¬ (4 ≤ used_length ∧ used_length < conf.page_size) then none else
  let next_page := n.next_page.getD 0
  (toBytes? NODE_TYPE_BYTES n.node_type_int).bind fun typeBytes =>
  (toBytes? USED_PAGE_LENGTH_BYTES used_length).bind fun usedBytes =>
  (toBytes? PAGE_REFERENCE_BYTES next_page).bind fun nextBytes =>
  let header := typeBytes ++ usedBytes ++ nextBytes
  let full := header ++ data
  if conf.page_size < full.length then none
  else some (full ++ List.replicate (conf.page_size - full.length) 0)

/-- Python `range(start, stop, step)` for a positive `step`. -/
def pyRange (start stop step : Nat) : List Nat :=
  (List.range ((stop - start + step - 1) / step)).map (fun j => start + j * step)

/-- Model of `Node.load` for a node instance whose `_entry_class` is `ec` and
whose `_node_type_int` is `node_type_int`: decodes the header and then
one entry per offset of `range(8, used_length + 8 - 4, entry_length)`. -/
def Node.load (conf : TreeConf) (ec : EntryClass) (node_type_int : Nat)
    (page : Option Nat) (data : List Nat) : Option Node :=
  if data.length ≠ conf.page_size then none else
  let end_used_length_bytes := NODE_TYPE_BYTES + USED_PAGE_LENGTH_BYTES
  let used_length :=
    fromBytesLE (pySlice data NODE_TYPE_BYTES end_used_length_bytes)
  let end_reference_bytes := end_used_length_bytes + PAGE_REFERENCE_BYTES
  let np := fromBytesLE (pySlice data end_used_length_bytes end_reference_bytes)
  let next_page := if np = 0 then none else some np
  let entry_length := ec.entryLength conf
  let offs := pyRange end_reference_bytes
    (used_length + end_reference_bytes - 4) entry_length
  (mapOption
      (fun o => ec.loadEntry conf (pySlice data o (o + entry_length)))
      offs).bind
    fun entries =>
      some { node_type_int := node_type_int, entries := entries,
             page := page, next_page := next_page }

/-- Model of `Node.from_page_data`: dispatch on the stored node type byte. -/
def Node.from_page_data (conf : TreeConf) (data : List Nat)
    (page : Option Nat) : Option Node :=
  let node_type_int := fromBytesLE (pySlice data 0 NODE_TYPE_BYTES)
  if node_type_int = 1 then Node.load conf .record 1 page data
  else if node_type_int = 2 then Node.load conf .reference 2 page data
  else if node_type_int = 3 then Node.load conf .reference 3 page data
  else if node_type_int = 4 then Node.load conf .record 4 page data
  else none

/-- Model of `RecordNode.num_children`: `len(self.entries)`. -/
def RecordNode.num_children (n : Node) : Nat :=
  n.entries.length

/-- Model of `ReferenceNode.num_children`:
`len(self.entries) + 1 if self.entries else 0`. -/
def ReferenceNode.num_children (n : Node) : Nat :=
  if n.entries ≠ [] then n.entries.length + 1 else 0

/-- Model of `math.ceil(order / 2)` of the node constructors. -/
def ceilHalf (order : Nat) : Int :=
  Int.ceil ((order : ℚ) / 2)

/-- The `min_children` / `max_children` a node subclass constructor sets. -/
structure NodeBounds where
  min_children : Int
  max_children : Int
deriving Repr, DecidableEq

/-- Model of `LonelyRootNode.__init__`. -/
def LonelyRootNode.bounds (conf : TreeConf) : NodeBounds :=
  { min_children := 0, max_children := (conf.order : Int) - 1 }

/-- Model of `RootNode.__init__`. -/
def RootNode.bounds (conf : TreeConf) : NodeBounds :=
  { min_children := 2, max_children := (conf.order : Int) }

/-- Model of `InternalNode.__init__`. -/
def InternalNode.bounds (conf : TreeConf) : NodeBounds :=
  { min_children := ceilHalf conf.order, max_children := (conf.order : Int) }

/-- Model of `LeafNode.__init__`. -/
def LeafNode.bounds (conf : TreeConf) : NodeBounds :=
  { min_children := ceilHalf conf.order - 1,
    max_children := (conf.order : Int) - 1 }

theorem ceilHalf_eq (o : Nat) : ceilHalf o = (((o + 1) / 2 : ℕ) : ℤ) := by
  unfold ceilHalf
  rcases Nat.even_or_odd o with ⟨m, rfl⟩ | ⟨m, rfl⟩
  · have h2 : (((m + m : ℕ) : ℚ)) / 2 = (m : ℚ) := by push_cast; ring
    rw [h2, Int.ceil_natCast]
    have : (m + m + 1) / 2 = m := by omega
    rw [this]
  · have h2 : (((2 * m + 1 : ℕ) : ℚ)) / 2 = (m : ℚ) + 1 / 2 := by
      push_cast; ring
    rw [h2]
    have hceil : Int.ceil ((m : ℚ) + 1 / 2) = (m : ℤ) + 1 := by
      rw [Int.ceil_eq_iff]
      constructor
      · push_cast
        norm_num
      · push_cast
        norm_num
    rw [hceil]
    have : (2 * m + 1 + 1) / 2 = m + 1 := by omega
    rw [this]
    push_cast
    ring

/-- C5 counterexample: an empty Reference-holding node (here the empty
Root) has `num_children = 0`, not `entries.count + 1 = 1` as the claim
requires "including when the entry list is empty". -/
theorem C5_num_children_cex :
    ¬ ReferenceNode.num_children { node_type_int := 2, entries := [] } =
      ({ node_type_int := 2, entries := [] } : Node).entries.length + 1 := by
  decide

/-- C5 (amended): for a Reference-holding node, `num_children` is
`entries.count + 1` when the entry list is non-empty and `0` when it is
empty; for a Record-holding node it is always `entries.count`. -/
theorem C5_num_children (n : Node) :
    (n.entries ≠ [] →
      ReferenceNode.num_children n = n.entries.length + 1) ∧
    (n.entries = [] → ReferenceNode.num_children n = 0) ∧
    RecordNode.num_children n = n.entries.length := by
  refine ⟨fun h => ?_, fun h => ?_, rfl⟩
  · simp [ReferenceNode.num_children, h]
  · simp [ReferenceNode.num_children, h]

/-- Witness for C5 at concrete nodes. -/
theorem C5_num_children_witness :
    ReferenceNode.num_children
        { node_type_int := 2,
          entries := [NEntry.reference ⟨1, some 2, some 3⟩] } = 2 ∧
    ReferenceNode.num_children { node_type_int := 3, entries := [] } = 0 :=
  ⟨(C5_num_children _).1 (by decide), (C5_num_children _).2.1 rfl⟩

/-- C7: for every tree configuration with order `o`, an `InternalNode`
is constructed with `min_children = ceil(o/2)` (equivalently the integer
`(o+1)/2`) and `max_children = o`, and a `LeafNode` is constructed with
`min_children = ceil(o/2) - 1` and `max_children = o - 1`. -/
theorem C7_internal_leaf_bounds (conf : TreeConf) :
    (InternalNode.bounds conf).min_children = (((conf.order + 1) / 2 : ℕ) : ℤ) ∧
    (InternalNode.bounds conf).max_children = (conf.order : ℤ) ∧
    (LeafNode.bounds conf).min_children
      = (((conf.order + 1) / 2 : ℕ) : ℤ) - 1 ∧
    (LeafNode.bounds conf).max_children = (conf.order : ℤ) - 1 := by
  refine ⟨?_, rfl, ?_, rfl⟩
  · rw [InternalNode.bounds, ceilHalf_eq]
  · rw [LeafNode.bounds, ceilHalf_eq]

/-! ### `ReferenceNode.insert_entry` (`gbplustree/node.py`)

`bisect.insort` keeps the entry list ordered by key (`Entry.__lt__`
compares keys), inserting after any equal keys.  On key-sorted lists —
the only lists the tree produces — the binary insertion point coincides
with the right-biased linear insertion modelled here. -/

def insortRef : List Reference → Reference → List Reference
  | [], e => [e]
  | x :: xs, e =>
    if e.key < x.key then e :: x :: xs else x :: insortRef xs e

/-- Model of `self.entries.index(entry)`: the first index comparing equal to the
entry, where `Entry.__eq__` compares keys only. -/
def indexByKey (l : List Reference) (k : Nat) : Nat :=
  l.findIdx (fun r => r.key == k)

/-- Model of `ReferenceNode.insert_entry`: insert via `bisect.insort`, then link
the neighbours of the inserted entry: the previous entry's `after`
becomes the new entry's `before`, and the next entry's `before` (the
`IndexError` when there is none is swallowed) becomes the new entry's
`after`. -/
def ReferenceNode.insert_entry (l : List Reference) (e : Reference) :
    List Reference :=
  let l1 := insortRef l e
  let i := indexByKey l1 e.key
  let l2 :=
    if i = 0 then l1
    else
      match l1.get? (i - 1) with
      | some prev => l1.set (i - 1) { prev with after := e.before }
      | none => l1
  match l2.get? (i + 1) with
  | some nxt => l2.set (i + 1) { nxt with before := e.after }
  | none => l2

/-- The sibling-chain invariant of a Reference node:
`r[i].after == r[i+1].before` for all adjacent pairs. -/
def chainOk : List Reference → Bool
  | [] => true
  | [_] => true
  | x :: y :: t => (x.after == y.before) && chainOk (y :: t)

/-- C6 counterexample: a singleton node `[{key 1, before 10, after 20}]`
satisfies the invariant, but inserting a Reference with the duplicate
key 1 (before 20, after 30) leaves adjacent entries with
`after = 20 ≠ before = 30`: `entries.index` finds the old entry instead
of the inserted one, so the wrong neighbour is patched. -/
theorem C6_insert_chain_cex :
    chainOk [⟨1, some 10, some 20⟩] = true ∧
    chainOk (ReferenceNode.insert_entry [⟨1, some 10, some 20⟩]
      ⟨1, some 20, some 30⟩) = false := by
  decide

theorem insert_entry_nil (e : Reference) :
    ReferenceNode.insert_entry [] e = [e] := by
  simp [ReferenceNode.insert_entry, insortRef, indexByKey,
    List.findIdx_cons]

theorem insert_entry_cons_of_lt (x : Reference) (xs : List Reference)
    (e : Reference) (h : e.key < x.key) :
    ReferenceNode.insert_entry (x :: xs) e =
      e :: { x with before := e.after } :: xs := by
  simp [ReferenceNode.insert_entry, insortRef, if_pos h, indexByKey,
    List.findIdx_cons]

theorem insert_entry_cons_of_gt (x : Reference) (xs : List Reference)
    (e : Reference) (hne : e.key ≠ x.key) (hgt : ¬ e.key < x.key) :
    ReferenceNode.insert_entry (x :: xs) e =
      (if indexByKey (insortRef xs e) e.key = 0
        then { x with after := e.before } else x)
        :: ReferenceNode.insert_entry xs e := by
  have hbeq : (x.key == e.key) = false := by
    simp
    exact fun hx => hne (hx.symm)
  unfold ReferenceNode.insert_entry indexByKey
  simp only [insortRef, if_neg hgt]
  simp only [List.findIdx_cons, hbeq, cond_false]
  set L := insortRef xs e with hL
  set i := List.findIdx (fun r => r.key == e.key) L with hi
  cases i with
  | zero =>
    simp only [List.get?_cons_succ, List.get?_cons_zero, List.set_cons_zero,
      Nat.zero_add, Nat.sub_self, one_ne_zero, if_false, if_pos rfl]
    cases hg : L[1]? with
    | none => simp [hg]
    | some nxt => simp [hg]
  | succ j =>
    simp only [List.get?_cons_succ, List.set_cons_succ, Nat.add_sub_cancel,
      Nat.succ_ne_zero, if_false]
    cases hp : L.get? j with
    | none =>
      simp only [hp, List.get?_cons_succ]
      cases hg : L.get? (j + 1 + 1) with
      | none => simp [hg]
      | some nxt => simp [hg]
    | some prev =>
      simp only [hp, List.get?_cons_succ]
      cases hg : (L.set j { prev with after := e.before }).get? (j + 1 + 1) with
      | none => simp [hg]
      | some nxt => simp [hg]

theorem chainOk_set_head_before (x : Reference) (v : Option Nat)
    (t : List Reference) :
    chainOk ({ x with before := v } :: t) = chainOk (x :: t) := by
  cases t <;> rfl

theorem chainOk_cons {x m : Reference} {t : List Reference}
    (h1 : x.after = m.before) (h2 : chainOk (m :: t) = true) :
    chainOk (x :: m :: t) = true := by
  simp [chainOk, h1, h2]

/-- C6 (amended): for a Reference-holding node whose entries are sorted
by strictly increasing key and satisfy the adjacent-pair invariant
`r[i].after == r[i+1].before`, inserting via `insert_entry` a Reference
whose key is not already present re-establishes the invariant for every
adjacent pair.  (The counterexample forces the fresh-key requirement;
sortedness is the state `bisect.insort` requires and the tree maintains.) -/
theorem C6_insert_chain (l : List Reference) (e : Reference)
    (hsorted : l.Chain' (fun u w => u.key < w.key))
    (hchain : chainOk l = true)
    (hfresh : e.key ∉ l.map Reference.key) :
    chainOk (ReferenceNode.insert_entry l e) = true := by
  induction l with
  | nil => rw [insert_entry_nil]; rfl
  | cons x xs ih =>
    rw [List.map_cons, List.mem_cons] at hfresh
    push_neg at hfresh
    obtain ⟨hne, hfresh⟩ := hfresh
    by_cases hlt : e.key < x.key
    · rw [insert_entry_cons_of_lt x xs e hlt]
      apply chainOk_cons rfl
      rw [chainOk_set_head_before]
      exact hchain
    · rw [insert_entry_cons_of_gt x xs e hne hlt]
      have hxs_chain : chainOk xs = true := by
        cases xs with
        | nil => rfl
        | cons y t =>
          simp only [chainOk, Bool.and_eq_true] at hchain
          exact hchain.2
      have ihh := ih hsorted.tail hxs_chain hfresh
      cases xs with
      | nil =>
        rw [insert_entry_nil]
        rw [if_pos (by simp [insortRef, indexByKey, List.findIdx_cons])]
        simp [chainOk]
      | cons y t =>
        have hney : e.key ≠ y.key := by
          intro hk
          exact absurd (hk ▸ List.mem_map_of_mem Reference.key
            (List.mem_cons_self y t)) (by simpa using hfresh)
        by_cases hlty : e.key < y.key
        · rw [if_pos (by simp [insortRef, hlty, indexByKey,
            List.findIdx_cons])]
          rw [insert_entry_cons_of_lt y t e hlty] at ihh ⊢
          exact chainOk_cons rfl ihh
        · have hb : (y.key == e.key) = false := by
            simp
            exact fun hy => hney hy.symm
          rw [if_neg (by simp [insortRef, hlty, indexByKey,
            List.findIdx_cons, hb])]
          rw [insert_entry_cons_of_gt y t e hney hlty] at ihh ⊢
          have hxy : x.after = y.before := by
            simp only [chainOk, Bool.and_eq_true, beq_iff_eq] at hchain
            exact hchain.1
          refine chainOk_cons ?_ ihh
          split <;> exact hxy

/-! ### Node page round-trip machinery -/

theorem NEntry.dump_length {conf : TreeConf} {en : NEntry} {ec : EntryClass}
    {d : List Nat} (hc : en.hasClass ec = true)
    (h : NEntry.dump conf en = some d) :
    d.length = ec.entryLength conf := by
  cases en with
  | record r =>
    cases ec with
    | record => exact (Record.roundtrip_record conf r d h).2
    | reference => simp [NEntry.hasClass] at hc
  | reference rf =>
    cases ec with
    | record => simp [NEntry.hasClass] at hc
    | reference => exact (Reference.roundtrip_reference conf rf d h).2

theorem NEntry.load_dump_entry {conf : TreeConf} {en : NEntry} {ec : EntryClass}
    {d : List Nat} (hc : en.hasClass ec = true)
    (h : NEntry.dump conf en = some d) :
    ec.loadEntry conf d = some en := by
  cases en with
  | record r =>
    cases ec with
    | record =>
      simp [EntryClass.loadEntry, (Record.roundtrip_record conf r d h).1]
    | reference => simp [NEntry.hasClass] at hc
  | reference rf =>
    cases ec with
    | record => simp [NEntry.hasClass] at hc
    | reference =>
      simp [EntryClass.loadEntry, (Reference.roundtrip_reference conf rf d h).1]

theorem EntryClass.entryLength_pos (conf : TreeConf) (ec : EntryClass) :
    0 < ec.entryLength conf := by
  cases ec <;>
    simp [EntryClass.entryLength, Record.length, Reference.length,
      USED_KEY_LENGTH_BYTES, USED_VALUE_LENGTH_BYTES, PAGE_REFERENCE_BYTES]

theorem mapOption_forall2 {α β : Type} (f : α → Option β) :
    ∀ (l : List α) (ds : List β), mapOption f l = some ds →
      List.Forall₂ (fun a b => f a = some b) l ds := by
  intro l
  induction l with
  | nil =>
    intro ds h
    simp only [mapOption, Option.some.injEq] at h
    subst h
    constructor
  | cons a l ih =>
    intro ds h
    cases hfa : f a with
    | none => simp [mapOption, hfa] at h
    | some b =>
      cases hml : mapOption f l with
      | none => simp [mapOption, hfa, hml] at h
      | some bs =>
        simp [mapOption, hfa, hml] at h
        subst h
        exact List.Forall₂.cons hfa (ih bs hml)

theorem mapOption_of_forall2 {α β : Type} {f : α → Option β} :
    ∀ {l : List α} {ds : List β},
      List.Forall₂ (fun a b => f a = some b) l ds → mapOption f l = some ds := by
  intro l ds h
  induction h with
  | nil => rfl
  | cons hab _ ih =>
    simp [mapOption, hab, ih]

theorem forall2_mem_right {α β : Type} {R : α → β → Prop} :
    ∀ {l : List α} {ds : List β}, List.Forall₂ R l ds →
      ∀ b ∈ ds, ∃ a ∈ l, R a b := by
  intro l ds h
  induction h with
  | nil => intro b hb; cases hb
  | cons hab _ ih =>
    intro b hb
    rcases List.mem_cons.1 hb with rfl | hb
    · exact ⟨_, List.mem_cons_self _ _, hab⟩
    · obtain ⟨a, ha, hr⟩ := ih b hb
      exact ⟨a, List.mem_cons_of_mem _ ha, hr⟩

theorem mapOption_map {α β γ : Type} (g : α → β) (f : β → Option γ)
    (l : List α) : mapOption f (l.map g) = mapOption (fun a => f (g a)) l := by
  induction l with
  | nil => rfl
  | cons a l ih => simp only [List.map_cons, mapOption, ih]

/-- Shifting a slice past a prefix of known length. -/
theorem pySlice_shift (pre tail : List Nat) (s a b : Nat)
    (hpre : pre.length = s) :
    pySlice (pre ++ tail) (s + a) (s + b) = pySlice tail a b := by
  subst hpre
  unfold pySlice
  rw [drop_append_len]
  congr 1
  omega

/-- Slicing the concatenation of fixed-size blocks at block boundaries
recovers the blocks. -/
theorem slices_of_join (el : Nat) :
    ∀ (blocks : List (List Nat)) (suffix : List Nat),
      (∀ b ∈ blocks, b.length = el) →
      (List.range blocks.length).map
          (fun j => pySlice (blocks.join ++ suffix) (j * el) (j * el + el))
        = blocks := by
  intro blocks
  induction blocks with
  | nil => intro suffix _; rfl
  | cons b bs ih =>
    intro suffix hel
    have hb : b.length = el := hel b (List.mem_cons_self _ _)
    have hjoin : (b :: bs).join ++ suffix = b ++ (bs.join ++ suffix) := by
      simp
    rw [List.length_cons, List.range_succ_eq_map, List.map_cons,
      List.map_map]
    have h0 : pySlice ((b :: bs).join ++ suffix) (0 * el) (0 * el + el)
        = b := by
      rw [hjoin, Nat.zero_mul]
      unfold pySlice
      rw [List.drop_zero, Nat.zero_add, Nat.sub_zero, ← hb, take_append_len]
    rw [h0]
    congr 1
    have htail : ∀ j ∈ List.range bs.length,
        ((fun j => pySlice ((b :: bs).join ++ suffix) (j * el) (j * el + el))
          ∘ Nat.succ) j
        = pySlice (bs.join ++ suffix) (j * el) (j * el + el) := by
      intro j _
      show pySlice ((b :: bs).join ++ suffix) (Nat.succ j * el)
        (Nat.succ j * el + el) = _
      rw [hjoin, show Nat.succ j * el = b.length + j * el by
          rw [hb, Nat.succ_mul]; exact Nat.add_comm _ _,
        show b.length + j * el + el = b.length + (j * el + el) from
          Nat.add_assoc _ _ _]
      exact pySlice_shift b (bs.join ++ suffix) b.length (j * el)
        (j * el + el) rfl
    rw [List.map_congr_left htail]
    exact ih suffix (fun x hx => hel x (List.mem_cons_of_mem _ hx))

theorem toBytes?_length {l n : Nat} {d : List Nat}
    (h : toBytes? l n = some d) : d.length = l := by
  unfold toBytes? at h
  split at h
  · cases h
    exact toBytesLE_length l n
  · cases h

theorem toBytes?_some_inv {l n : Nat} {d : List Nat}
    (h : toBytes? l n = some d) :
    n < 256 ^ l ∧ d = toBytesLE l n := by
  unfold toBytes? at h
  split at h
  · cases h
    exact ⟨by assumption, rfl⟩
  · cases h

/-- Inversion of a successful `Node.dump`: the entry dumps all succeed,
every `to_bytes` is in range, the page fits, and the page image is
header + entry bytes + zero padding. -/
theorem Node.dump_inv (conf : TreeConf) (n : Node) (data : List Nat)
    (h : Node.dump conf n = some data) :
    ∃ dumps, mapOption (NEntry.dump conf) n.entries = some dumps ∧
      n.node_type_int < 256 ^ NODE_TYPE_BYTES ∧
      dumps.join.length + 4 < 256 ^ USED_PAGE_LENGTH_BYTES ∧
      n.next_page.getD 0 < 256 ^ PAGE_REFERENCE_BYTES ∧
      dumps.join.length + 4 < conf.page_size ∧
      8 + dumps.join.length ≤ conf.page_size ∧
      data = toBytesLE NODE_TYPE_BYTES n.node_type_int
        ++ toBytesLE USED_PAGE_LENGTH_BYTES (dumps.join.length + 4)
        ++ toBytesLE PAGE_REFERENCE_BYTES (n.next_page.getD 0)
        ++ dumps.join
        ++ List.replicate (conf.page_size - (8 + dumps.join.length)) 0 := by
  unfold Node.dump at h
  cases hdm : mapOption (NEntry.dump conf) n.entries with
  | none => rw [hdm, Option.none_bind] at h; cases h
  | some dumps =>
    rw [hdm] at h
    simp only [Option.some_bind] at h
    have h4 : 4 ≤ dumps.join.length + 4 := Nat.le_add_left 4 _
    by_cases h1 : dumps.join.length + 4 < conf.page_size
    · rw [if_neg (not_not_intro ⟨h4, h1⟩)] at h
      cases htb : toBytes? NODE_TYPE_BYTES n.node_type_int with
      | none => rw [htb, Option.none_bind] at h; cases h
      | some tb =>
        rw [htb] at h
        simp only [Option.some_bind] at h
        cases hub : toBytes? USED_PAGE_LENGTH_BYTES
            (dumps.join.length + 4) with
        | none => rw [hub, Option.none_bind] at h; cases h
        | some ub =>
          rw [hub] at h
          simp only [Option.some_bind] at h
          cases hnb : toBytes? PAGE_REFERENCE_BYTES
              (n.next_page.getD 0) with
          | none => rw [hnb, Option.none_bind] at h; cases h
          | some nb =>
            rw [hnb] at h
            simp only [Option.some_bind] at h
            have hlen : (tb ++ ub ++ nb ++ dumps.join).length
                = 8 + dumps.join.length := by
              simp only [List.length_append, toBytes?_length htb,
                toBytes?_length hub, toBytes?_length hnb, NODE_TYPE_BYTES,
                USED_PAGE_LENGTH_BYTES, PAGE_REFERENCE_BYTES] <;> omega
            rw [hlen] at h
            by_cases hfit : 8 + dumps.join.length ≤ conf.page_size
            · rw [if_neg (by omega)] at h
              obtain rfl : _ = data := Option.some.inj h
              refine ⟨dumps, rfl, (toBytes?_some_inv htb).1,
                (toBytes?_some_inv hub).1, (toBytes?_some_inv hnb).1,
                h1, hfit, ?_⟩
              rw [(toBytes?_some_inv htb).2, (toBytes?_some_inv hub).2,
                (toBytes?_some_inv hnb).2]
            · rw [if_pos (by omega)] at h
              cases h
    · rw [if_pos (by omega)] at h
      cases h

/-- Forward construction: when everything is in range and the entries
fit, `Node.dump` succeeds with the explicit page image. -/
theorem Node.dump_eq_some_of (conf : TreeConf) (n : Node)
    (dumps : List (List Nat))
    (hdm : mapOption (NEntry.dump conf) n.entries = some dumps)
    (hnt : n.node_type_int < 256 ^ NODE_TYPE_BYTES)
    (hnp : n.next_page.getD 0 < 256 ^ PAGE_REFERENCE_BYTES)
    (hps : conf.page_size ≤ 256 ^ USED_PAGE_LENGTH_BYTES)
    (hfit : 8 + dumps.join.length ≤ conf.page_size) :
    Node.dump conf n = some (toBytesLE NODE_TYPE_BYTES n.node_type_int
      ++ toBytesLE USED_PAGE_LENGTH_BYTES (dumps.join.length + 4)
      ++ toBytesLE PAGE_REFERENCE_BYTES (n.next_page.getD 0)
      ++ dumps.join
      ++ List.replicate (conf.page_size - (8 + dumps.join.length)) 0) := by
  have h1 : dumps.join.length + 4 < conf.page_size := by omega
  have hul : dumps.join.length + 4 < 256 ^ USED_PAGE_LENGTH_BYTES :=
    lt_of_lt_of_le h1 hps
  have h4 : 4 ≤ dumps.join.length + 4 := Nat.le_add_left 4 _
  unfold Node.dump
  rw [hdm]
  simp only [Option.some_bind]
  rw [if_neg (not_not_intro ⟨h4, h1⟩)]
  rw [toBytes?_eq_some hnt]
  simp only [Option.some_bind]
  rw [toBytes?_eq_some hul]
  simp only [Option.some_bind]
  rw [toBytes?_eq_some hnp]
  simp only [Option.some_bind]
  have hlen : (toBytesLE NODE_TYPE_BYTES n.node_type_int
      ++ toBytesLE USED_PAGE_LENGTH_BYTES (dumps.join.length + 4)
      ++ toBytesLE PAGE_REFERENCE_BYTES (n.next_page.getD 0)
      ++ dumps.join).length = 8 + dumps.join.length := by
    simp only [List.length_append, toBytesLE_length, NODE_TYPE_BYTES,
      USED_PAGE_LENGTH_BYTES, PAGE_REFERENCE_BYTES] <;> omega
  rw [hlen]
  rw [if_neg (by omega)]

/-- When the serialized entries together with the 8-byte header exceed
`page_size`, `Node.dump` fails (either the `used_length` assert or the
padding assert fires). -/
theorem Node.dump_eq_none_of (conf : TreeConf) (n : Node)
    (dumps : List (List Nat))
    (hdm : mapOption (NEntry.dump conf) n.entries = some dumps)
    (hbig : conf.page_size < 8 + dumps.join.length) :
    Node.dump conf n = none := by
  unfold Node.dump
  rw [hdm]
  simp only [Option.some_bind]
  have h4 : 4 ≤ dumps.join.length + 4 := Nat.le_add_left 4 _
  by_cases h1 : dumps.join.length + 4 < conf.page_size
  · rw [if_neg (not_not_intro ⟨h4, h1⟩)]
    cases htb : toBytes? NODE_TYPE_BYTES n.node_type_int with
    | none => rw [Option.none_bind]
    | some tb =>
      simp only [Option.some_bind]
      cases hub : toBytes? USED_PAGE_LENGTH_BYTES
          (dumps.join.length + 4) with
      | none => rw [Option.none_bind]
      | some ub =>
        simp only [Option.some_bind]
        cases hnb : toBytes? PAGE_REFERENCE_BYTES (n.next_page.getD 0) with
        | none => rw [Option.none_bind]
        | some nb =>
          simp only [Option.some_bind]
          have hlen : (tb ++ ub ++ nb ++ dumps.join).length
              = 8 + dumps.join.length := by
            simp only [List.length_append, toBytes?_length htb,
              toBytes?_length hub, toBytes?_length hnb, NODE_TYPE_BYTES,
              USED_PAGE_LENGTH_BYTES, PAGE_REFERENCE_BYTES] <;> omega
          rw [hlen]
          rw [if_pos (by omega)]
  · rw [if_pos (by omega)]

theorem join_length_const {blocks : List (List Nat)} {el : Nat}
    (h : ∀ b ∈ blocks, b.length = el) :
    blocks.join.length = blocks.length * el := by
  induction blocks with
  | nil => simp
  | cons b bs ih =>
    have hj : (b :: bs).join = b ++ bs.join := rfl
    rw [hj, List.length_append, List.length_cons,
      h b (List.mem_cons_self _ _),
      ih (fun x hx => h x (List.mem_cons_of_mem _ hx))]
    ring

theorem block_count_div {k el : Nat} (hel : 0 < el) :
    (k * el + el - 1) / el = k := by
  rw [show k * el + el - 1 = el - 1 + k * el by omega, Nat.mul_comm k el,
    Nat.add_mul_div_left _ _ hel, Nat.div_eq_of_lt (by omega)]
  omega

theorem forall2_load {conf : TreeConf} {ec : EntryClass}
    {entries : List NEntry} {dumps : List (List Nat)}
    (hF2 : List.Forall₂ (fun en d => NEntry.dump conf en = some d)
      entries dumps)
    (hc : ∀ en ∈ entries, en.hasClass ec = true) :
    List.Forall₂ (fun d en => ec.loadEntry conf d = some en)
      dumps entries := by
  induction hF2 with
  | nil => constructor
  | cons hab htail ih =>
    exact List.Forall₂.cons
      (NEntry.load_dump_entry (hc _ (List.mem_cons_self _ _)) hab)
      (ih (fun en hen => hc en (List.mem_cons_of_mem _ hen)))

/-- Loading a successfully dumped page recovers the node: same type byte,
the very same entries, and `next_page` up to the `0 ↔ None` convention;
moreover the stored `used_length` field is 4 (node-type byte plus 3-byte
length field) plus the total entry bytes — not the full 8-byte header. -/
theorem Node.load_dump_node (conf : TreeConf) (ec : EntryClass) (n : Node)
    (data : List Nat)
    (hc : ∀ en ∈ n.entries, en.hasClass ec = true)
    (h : Node.dump conf n = some data) :
    Node.load conf ec n.node_type_int n.page data = some
      { node_type_int := n.node_type_int,
        entries := n.entries,
        page := n.page,
        next_page := if n.next_page.getD 0 = 0 then none
          else some (n.next_page.getD 0) } ∧
    fromBytesLE (pySlice data NODE_TYPE_BYTES
        (NODE_TYPE_BYTES + USED_PAGE_LENGTH_BYTES))
      = n.entries.length * ec.entryLength conf + 4 := by
  obtain ⟨dumps, hdm, hnt, hul, hnp, h1, hfit, rfl⟩ :=
    Node.dump_inv conf n data h
  have hF2 := mapOption_forall2 (NEntry.dump conf) n.entries dumps hdm
  have hel : ∀ d ∈ dumps, d.length = ec.entryLength conf := by
    intro d hd
    obtain ⟨en, hen, hde⟩ := forall2_mem_right hF2 d hd
    exact NEntry.dump_length (hc en hen) hde
  have hcount : dumps.length = n.entries.length := hF2.length_eq.symm
  have hjoinlen : dumps.join.length
      = n.entries.length * ec.entryLength conf := by
    rw [join_length_const hel, hcount]
  set el := ec.entryLength conf with hel_def
  set T := toBytesLE NODE_TYPE_BYTES n.node_type_int with hT
  set U := toBytesLE USED_PAGE_LENGTH_BYTES (dumps.join.length + 4) with hU
  set Np := toBytesLE PAGE_REFERENCE_BYTES (n.next_page.getD 0) with hNp
  have hTlen : T.length = NODE_TYPE_BYTES := by rw [hT, toBytesLE_length]
  have hUlen : U.length = USED_PAGE_LENGTH_BYTES := by
    rw [hU, toBytesLE_length]
  have hNplen : Np.length = PAGE_REFERENCE_BYTES := by
    rw [hNp, toBytesLE_length]
  set P := List.replicate (conf.page_size - (8 + dumps.join.length)) 0
    with hP
  have hPlen : P.length = conf.page_size - (8 + dumps.join.length) := by
    rw [hP, List.length_replicate]
  have hdatalen : (T ++ U ++ Np ++ dumps.join ++ P).length
      = conf.page_size := by
    simp only [List.length_append, hTlen, hUlen, hNplen, hPlen,
      NODE_TYPE_BYTES, USED_PAGE_LENGTH_BYTES, PAGE_REFERENCE_BYTES]
    omega
  have s_used : pySlice (T ++ U ++ Np ++ dumps.join ++ P) NODE_TYPE_BYTES
      (NODE_TYPE_BYTES + USED_PAGE_LENGTH_BYTES) = U := by
    rw [show T ++ U ++ Np ++ dumps.join ++ P
        = T ++ U ++ (Np ++ dumps.join ++ P) by simp]
    exact pySlice_block _ _ _ _ _ hTlen (by rw [hUlen]; omega)
      (Nat.le_add_right _ _)
  have s_np : pySlice (T ++ U ++ Np ++ dumps.join ++ P)
      (NODE_TYPE_BYTES + USED_PAGE_LENGTH_BYTES)
      (NODE_TYPE_BYTES + USED_PAGE_LENGTH_BYTES + PAGE_REFERENCE_BYTES)
      = Np := by
    rw [show T ++ U ++ Np ++ dumps.join ++ P
        = (T ++ U) ++ Np ++ (dumps.join ++ P) by simp]
    exact pySlice_block _ _ _ _ _
      (by rw [List.length_append, hTlen, hUlen])
      (by rw [hNplen]; omega) (Nat.le_add_right _ _)
  have hhead8 : (T ++ U ++ Np).length
      = NODE_TYPE_BYTES + USED_PAGE_LENGTH_BYTES + PAGE_REFERENCE_BYTES := by
    simp only [List.length_append, hTlen, hUlen, hNplen]
  have hslices : (List.range n.entries.length).map
      (fun j => pySlice (T ++ U ++ Np ++ dumps.join ++ P)
        (NODE_TYPE_BYTES + USED_PAGE_LENGTH_BYTES + PAGE_REFERENCE_BYTES
          + j * el)
        (NODE_TYPE_BYTES + USED_PAGE_LENGTH_BYTES + PAGE_REFERENCE_BYTES
          + j * el + el)) = dumps := by
    have hpt : ∀ j ∈ List.range n.entries.length,
        pySlice (T ++ U ++ Np ++ dumps.join ++ P)
          (NODE_TYPE_BYTES + USED_PAGE_LENGTH_BYTES + PAGE_REFERENCE_BYTES
            + j * el)
          (NODE_TYPE_BYTES + USED_PAGE_LENGTH_BYTES + PAGE_REFERENCE_BYTES
            + j * el + el)
        = pySlice (dumps.join ++ P) (j * el) (j * el + el) := by
      intro j _
      rw [show T ++ U ++ Np ++ dumps.join ++ P
          = (T ++ U ++ Np) ++ (dumps.join ++ P) by simp]
      rw [show NODE_TYPE_BYTES + USED_PAGE_LENGTH_BYTES
          + PAGE_REFERENCE_BYTES + j * el + el
        = NODE_TYPE_BYTES + USED_PAGE_LENGTH_BYTES + PAGE_REFERENCE_BYTES
          + (j * el + el) from Nat.add_assoc _ _ _]
      rw [← hhead8]
      exact pySlice_shift _ _ _ _ _ rfl
    rw [List.map_congr_left hpt, ← hcount]
    exact slices_of_join el dumps P hel
  have hload : mapOption
      (fun j => ec.loadEntry conf (pySlice (T ++ U ++ Np ++ dumps.join ++ P)
        (NODE_TYPE_BYTES + USED_PAGE_LENGTH_BYTES + PAGE_REFERENCE_BYTES
          + j * el)
        (NODE_TYPE_BYTES + USED_PAGE_LENGTH_BYTES + PAGE_REFERENCE_BYTES
          + j * el + el)))
      (List.range n.entries.length) = some n.entries := by
    apply mapOption_of_forall2
    have hfl := forall2_load hF2 hc
    rw [← hslices] at hfl
    exact List.forall₂_map_left_iff.mp hfl
  have hcount2 : (dumps.join.length + 4
      + (NODE_TYPE_BYTES + USED_PAGE_LENGTH_BYTES + PAGE_REFERENCE_BYTES)
      - 4
      - (NODE_TYPE_BYTES + USED_PAGE_LENGTH_BYTES + PAGE_REFERENCE_BYTES)
      + el - 1) / el = n.entries.length := by
    rw [show dumps.join.length + 4
        + (NODE_TYPE_BYTES + USED_PAGE_LENGTH_BYTES + PAGE_REFERENCE_BYTES)
        - 4
        - (NODE_TYPE_BYTES + USED_PAGE_LENGTH_BYTES + PAGE_REFERENCE_BYTES)
        + el - 1 = dumps.join.length + el - 1 by omega]
    rw [hjoinlen]
    exact block_count_div (hel_def ▸ EntryClass.entryLength_pos conf ec)
  refine ⟨?_, ?_⟩
  · rw [Node.load, if_neg (not_not_intro hdatalen)]
    simp only [s_used, s_np, hU,
      fromBytesLE_toBytesLE hul, hNp, fromBytesLE_toBytesLE hnp]
    rw [pyRange, hcount2]
    simp only [mapOption_map]
    rw [hload]
    simp only [Option.some_bind]
  · rw [s_used, hU, fromBytesLE_toBytesLE hul, hjoinlen]

/-- Concrete configuration for the node-level witnesses:
`page_size = 32`, `order = 4`, `key_size = 1`, `value_size = 1`
(record entry length 10). -/
def confN : TreeConf := ⟨32, 4, 1, 1⟩

/-- A one-record leaf node. -/
def nodeN : Node := ⟨4, [NEntry.record ⟨7, some [9], none⟩], none, none⟩

/-- The page image `Node.dump confN nodeN` produces: type byte 4,
used_length 14 (not 18!), next_page 0, one 10-byte record, zero padding. -/
def dataN : List Nat :=
  [4, 14, 0, 0, 0, 0, 0, 0, 1, 0, 7, 1, 0, 9, 0, 0, 0, 0,
   0, 0, 0, 0, 0, 0, 0, 0, 0, 0, 0, 0, 0, 0]

/-- C4 counterexample: for a one-record leaf (entry length 10) the
used_length field written by `dump()` is 14 = 4 + 10, not the claimed
8 + 10 = 18 (the code adds only `NODE_TYPE_BYTES + USED_PAGE_LENGTH_BYTES
= 4`, not the full 8-byte header), and `load()` decodes 1 entry, not
`(used_length - 8) / entry_length = 0`. -/
theorem C4_used_length_cex :
    Node.dump confN nodeN = some dataN ∧
    fromBytesLE (pySlice dataN NODE_TYPE_BYTES
      (NODE_TYPE_BYTES + USED_PAGE_LENGTH_BYTES)) = 14 ∧
    (14 : Nat) ≠ 8 + nodeN.entries.length * Record.length confN ∧
    (Node.load confN .record 4 none dataN).map
      (fun m => m.entries.length) = some 1 ∧
    (1 : Nat) ≠ (14 - 8) / Record.length confN := by
  decide

/-- C4 (amended): for every node, the used_length field written into the
page header by `dump()` equals `NODE_TYPE_BYTES + USED_PAGE_LENGTH_BYTES`
(4 bytes — not the full 8-byte header) plus the total length of the
serialized entries, and `load()` decodes exactly
`(used_length - 4) / entry_length` entries from the page buffer. -/
theorem C4_used_length (conf : TreeConf) (ec : EntryClass) (n : Node)
    (data : List Nat)
    (hc : ∀ en ∈ n.entries, en.hasClass ec = true)
    (h : Node.dump conf n = some data) :
    fromBytesLE (pySlice data NODE_TYPE_BYTES
        (NODE_TYPE_BYTES + USED_PAGE_LENGTH_BYTES))
      = (NODE_TYPE_BYTES + USED_PAGE_LENGTH_BYTES)
        + n.entries.length * ec.entryLength conf ∧
    ∃ n', Node.load conf ec n.node_type_int n.page data = some n' ∧
      n'.entries.length
        = (fromBytesLE (pySlice data NODE_TYPE_BYTES
            (NODE_TYPE_BYTES + USED_PAGE_LENGTH_BYTES))
          - (NODE_TYPE_BYTES + USED_PAGE_LENGTH_BYTES))
          / ec.entryLength conf := by
  obtain ⟨hload, hused⟩ := Node.load_dump_node conf ec n data hc h
  constructor
  · rw [hused]
    simp only [NODE_TYPE_BYTES, USED_PAGE_LENGTH_BYTES]
    ring
  · refine ⟨_, hload, ?_⟩
    rw [hused]
    simp only [NODE_TYPE_BYTES, USED_PAGE_LENGTH_BYTES]
    rw [show n.entries.length * ec.entryLength conf + 4 - (1 + 3)
        = n.entries.length * ec.entryLength conf by omega]
    rw [Nat.mul_div_cancel _ (EntryClass.entryLength_pos conf ec)]

/-- Witness for C4 (amended) at the concrete one-record leaf. -/
theorem C4_used_length_witness :
    fromBytesLE (pySlice dataN NODE_TYPE_BYTES
        (NODE_TYPE_BYTES + USED_PAGE_LENGTH_BYTES))
      = (NODE_TYPE_BYTES + USED_PAGE_LENGTH_BYTES)
        + nodeN.entries.length * EntryClass.entryLength confN .record ∧
    ∃ n', Node.load confN .record nodeN.node_type_int nodeN.page dataN
        = some n' ∧
      n'.entries.length
        = (fromBytesLE (pySlice dataN NODE_TYPE_BYTES
            (NODE_TYPE_BYTES + USED_PAGE_LENGTH_BYTES))
          - (NODE_TYPE_BYTES + USED_PAGE_LENGTH_BYTES))
          / EntryClass.entryLength confN .record :=
  C4_used_length confN .record nodeN dataN (by decide) (by decide)

/-- C8: `dump()` fails exactly when the serialized entries together with
the 8-byte header do not fit in `page_size`; on success the page image is
exactly `page_size` bytes, with zero padding after the entries. -/
theorem C8_dump_overflow (conf : TreeConf) (n : Node)
    (dumps : List (List Nat))
    (hdm : mapOption (NEntry.dump conf) n.entries = some dumps)
    (hnt : n.node_type_int < 256 ^ NODE_TYPE_BYTES)
    (hnp : n.next_page.getD 0 < 256 ^ PAGE_REFERENCE_BYTES)
    (hps : conf.page_size ≤ 256 ^ USED_PAGE_LENGTH_BYTES) :
    (Node.dump conf n = none ↔ conf.page_size < dumps.join.length + 8) ∧
    ∀ data, Node.dump conf n = some data →
      data.length = conf.page_size ∧
      data.drop (8 + dumps.join.length)
        = List.replicate (conf.page_size - (8 + dumps.join.length)) 0 := by
  constructor
  · constructor
    · intro hnone
      by_contra hbig
      rw [Node.dump_eq_some_of conf n dumps hdm hnt hnp hps (by omega)]
        at hnone
      cases hnone
    · intro hbig
      exact Node.dump_eq_none_of conf n dumps hdm (by omega)
  · intro data h
    obtain ⟨dumps', hdm', _, _, _, _, hfit, rfl⟩ := Node.dump_inv conf n data h
    have heq : dumps = dumps' := Option.some.inj (hdm.symm.trans hdm')
    subst heq
    constructor
    · simp only [List.length_append, toBytesLE_length, List.length_replicate,
        NODE_TYPE_BYTES, USED_PAGE_LENGTH_BYTES, PAGE_REFERENCE_BYTES]
        <;> omega
    · have hL : (toBytesLE NODE_TYPE_BYTES n.node_type_int
          ++ toBytesLE USED_PAGE_LENGTH_BYTES (dumps.join.length + 4)
          ++ toBytesLE PAGE_REFERENCE_BYTES (n.next_page.getD 0)
          ++ dumps.join).length = 8 + dumps.join.length := by
        simp only [List.length_append, toBytesLE_length, NODE_TYPE_BYTES,
          USED_PAGE_LENGTH_BYTES, PAGE_REFERENCE_BYTES]
          <;> omega
      rw [← hL, List.drop_left]

/-- Witness for C8 at the concrete one-record leaf. -/
theorem C8_dump_overflow_witness :
    (Node.dump confN nodeN = none
      ↔ confN.page_size < [[1, 0, 7, 1, 0, 9, 0, 0, 0, 0]].join.length + 8) ∧
    (dataN.length = confN.page_size ∧
      dataN.drop (8 + [[1, 0, 7, 1, 0, 9, 0, 0, 0, 0]].join.length)
        = List.replicate
            (confN.page_size - (8 + [[1, 0, 7, 1, 0, 9, 0, 0, 0, 0]].join.length))
            0) :=
  ⟨(C8_dump_overflow confN nodeN [[1, 0, 7, 1, 0, 9, 0, 0, 0, 0]]
      (by decide) (by decide) (by decide) (by decide)).1,
   (C8_dump_overflow confN nodeN [[1, 0, 7, 1, 0, 9, 0, 0, 0, 0]]
      (by decide) (by decide) (by decide) (by decide)).2 dataN (by decide)⟩

/-! ### Storage layer (`gbplustree/memory.py`)

`write_to_file` loops `written += fd.write(data[written:])` until the
whole buffer is written.  The file descriptor is modelled in append
position: call `i` consumes `min (oracle i) remaining` bytes of its
argument and appends them to the file; a blocking regular-file write
consumes at least one byte, which is the `1 ≤ oracle i` hypothesis.
The loop itself is unbounded, so the model carries fuel; `data.length`
steps always suffice under that hypothesis. -/

def fdWrite (file chunk : List Nat) (k : Nat) : List Nat × Nat :=
  (file ++ chunk.take k, min k chunk.length)

def write_to_file_loop (oracle : Nat → Nat) (file data : List Nat)
    (written i fuel : Nat) : Option (List Nat × Nat) :=
  match fuel with
  | 0 => if written < data.length then none else some (file, written)
  | fuel + 1 =>
    if written < data.length then
      let res := fdWrite file (data.drop written) (oracle i)
      write_to_file_loop oracle res.1 data (written + res.2) (i + 1) fuel
    else some (file, written)

def write_to_file (oracle : Nat → Nat) (file data : List Nat) :
    Option (List Nat × Nat) :=
  write_to_file_loop oracle file data 0 0 data.length

theorem take_eq_take_min {α : Type} (l : List α) (k : Nat) :
    l.take k = l.take (min k l.length) := by
  rcases le_total k l.length with h | h
  · rw [min_eq_left h]
  · rw [min_eq_right h, List.take_of_length_le h, List.take_of_length_le]
    exact le_refl _

theorem write_to_file_loop_spec (oracle : Nat → Nat) (data : List Nat)
    (hpos : ∀ i, 1 ≤ oracle i) :
    ∀ (fuel written : Nat) (file : List Nat) (i : Nat),
      written ≤ data.length → data.length - written ≤ fuel →
      write_to_file_loop oracle file data written i fuel
        = some (file ++ data.drop written, data.length) := by
  intro fuel
  induction fuel with
  | zero =>
    intro written file i hle hfuel
    have hw : written = data.length := by omega
    rw [write_to_file_loop, if_neg (by omega)]
    rw [hw, List.drop_length, List.append_nil]
  | succ fuel ih =>
    intro written file i hle hfuel
    by_cases hlt : written < data.length
    · rw [write_to_file_loop, if_pos hlt]
      have hchunk : (data.drop written).length = data.length - written :=
        List.length_drop _ _
      set c := min (oracle i) (data.drop written).length with hc
      have hc1 : 1 ≤ c := by
        rw [hc]
        refine le_min (hpos i) ?_
        rw [hchunk]
        omega
      have hcle : c ≤ data.length - written := by
        rw [hc, hchunk]
        exact min_le_right _ _
      have ihres := ih (written + c) (file ++ (data.drop written).take (oracle i))
        (i + 1) (by omega) (by omega)
      simp only [fdWrite, ← hc]
      rw [ihres]
      have hdropc : data.drop (written + c) = (data.drop written).drop c := by
        rw [List.drop_drop]
      have hsplit : (file ++ (data.drop written).take (oracle i))
          ++ data.drop (written + c) = file ++ data.drop written := by
        rw [List.append_assoc]
        congr 1
        rw [take_eq_take_min (data.drop written) (oracle i), ← hc, hdropc]
        exact List.take_append_drop c (data.drop written)
      rw [hsplit]
    · rw [write_to_file_loop, if_neg hlt]
      have hw : written = data.length := by omega
      rw [hw, List.drop_length, List.append_nil]

/-- C10: for every byte string and every file descriptor whose `write`
may consume only a prefix on each call (but at least one byte, as a
blocking regular-file write does), `write_to_file` keeps writing the
unwritten suffix until the total written equals `len(data)`: the whole
buffer is appended to the file exactly once, in order. -/
theorem C10_write_to_file (oracle : Nat → Nat) (file data : List Nat)
    (hpos : ∀ i, 1 ≤ oracle i) :
    write_to_file oracle file data = some (file ++ data, data.length) := by
  rw [write_to_file,
    write_to_file_loop_spec oracle data hpos data.length 0 file 0
      (Nat.zero_le _) (by omega),
    List.drop_zero]

/-- Witness for C10: an fd that accepts one byte per call writes the
whole 3-byte buffer. -/
theorem C10_write_to_file_witness :
    write_to_file (fun _ => 1) [9] [5, 6, 7] = some ([9, 5, 6, 7], 3) :=
  C10_write_to_file (fun _ => 1) [9] [5, 6, 7] (fun _ => Nat.le_refl 1)

/-- The observable state of `WAL.__init__`. -/
structure WALState where
  file : List Nat
  page_size : Nat
  need_recovery : Bool
deriving Repr, DecidableEq

/-- Model of `WAL.__init__` on a backing file with current contents `file`:
an empty file gets the header `page_size.to_bytes(4, ENDIAN)`
(`_create_header`; its possible `OverflowError` is `none`) and
`need_recovery = False`.  A non-empty file sets `need_recovery = True`
and then calls `_load_wal`, whose present portion (the source is
truncated after it) executes `read_from_file(self._fd, 0, OTHER_BYTES)`:
for a non-empty file shorter than `OTHER_BYTES` this read hits end of
file before `stop`, so `read_from_file` raises `ReachedEndOfFile` and
construction fails (`none`); otherwise the file and flag are left as
set. -/
def WAL.init (file : List Nat) (page_size : Nat) : Option WALState :=
  if file.length = 0 then
    (toBytes? OTHER_BYTES page_size).map
      (fun hdr =>
        { file := hdr, page_size := page_size, need_recovery := false })
  else
    if file.length < OTHER_BYTES then none
    else some { file := file, page_size := page_size, need_recovery := true }

/-- C9 counterexample: a non-empty one-byte WAL file does not produce a
WAL object with `need_recovery = true` — the constructor raises
`ReachedEndOfFile` while `_load_wal` reads the 4-byte header back, so
construction fails outright. -/
theorem C9_wal_need_recovery_cex :
    ([9] : List Nat).length ≠ 0 ∧
    WAL.init [9] 64 = none ∧
    (WAL.init [9] 64).map WALState.need_recovery ≠ some true := by
  decide

/-- C9 (amended): constructing a WAL over an empty backing file writes a
header holding the 4-byte page size and reports `need_recovery = false`;
a non-empty backing file of at least `OTHER_BYTES` (4) bytes is left as
found with `need_recovery = true`, while a shorter non-empty file makes
construction fail with `ReachedEndOfFile` when `_load_wal` reads the
header back — so a constructed WAL reports `need_recovery = true`
exactly when a header-sized WAL file survived the prior session. -/
theorem C9_wal_need_recovery (file : List Nat) (page_size : Nat)
    (hps : page_size < 256 ^ OTHER_BYTES) :
    (file.length = 0 → WAL.init file page_size
      = some ⟨toBytesLE OTHER_BYTES page_size, page_size, false⟩) ∧
    (0 < file.length → file.length < OTHER_BYTES →
      WAL.init file page_size = none) ∧
    (OTHER_BYTES ≤ file.length → WAL.init file page_size
      = some ⟨file, page_size, true⟩) ∧
    ((WAL.init file page_size).map WALState.need_recovery = some true
      ↔ OTHER_BYTES ≤ file.length) := by
  simp only [OTHER_BYTES] at hps ⊢
  rcases Nat.lt_or_ge file.length 1 with h0 | h1
  · have h : file.length = 0 := by omega
    simp [WAL.init, h, toBytes?_eq_some hps, OTHER_BYTES]
  · have hne : file ≠ [] := by
      intro hnil
      rw [hnil] at h1
      exact absurd h1 (by decide)
    rcases Nat.lt_or_ge file.length 4 with hs | hl
    · simp [WAL.init, OTHER_BYTES, hne, (by omega : ¬ file.length = 0), hs,
        (by omega : ¬ 4 ≤ file.length)]
    · simp [WAL.init, OTHER_BYTES, hne, (by omega : ¬ file.length = 0),
        (by omega : ¬ file.length < 4), hl]

/-- Witness for C9: an empty WAL file gets the header and no recovery; a
one-byte leftover fails construction; a four-byte leftover demands
recovery. -/
theorem C9_wal_need_recovery_witness :
    WAL.init [] 64 = some ⟨toBytesLE OTHER_BYTES 64, 64, false⟩ ∧
    WAL.init [9] 64 = none ∧
    WAL.init [9, 9, 9, 9] 64 = some ⟨[9, 9, 9, 9], 64, true⟩ :=
  ⟨(C9_wal_need_recovery [] 64 (by decide)).1 rfl,
   (C9_wal_need_recovery [9] 64 (by decide)).2.1 (by decide) (by decide),
   (C9_wal_need_recovery [9, 9, 9, 9] 64 (by decide)).2.2.1 (by decide)⟩

inductive MemError
  | reachedEndOfFile
  | decodeError
deriving Repr, DecidableEq

/-- Write `data` into `file` at `offset`, zero-extending the file first
when it is shorter than `offset`. -/
def writeAt (file : List Nat) (offset : Nat) (data : List Nat) : List Nat :=
  let padded := if file.length < offset
    then file ++ List.replicate (offset - file.length) 0 else file
  padded.take offset ++ data ++ padded.drop (offset + data.length)

/-- Modelled from the spec: `FileMemory.get_node` and
`FileMemory.set_node` are empty stubs (`pass`) in `gbplustree/memory.py`,
so the page store is modelled after §4.6 of the specification: a byte
file plus a cache of decoded nodes keyed by page id (an association
list, most recent write first). -/
structure FileMemory where
  file : List Nat
  cache : List (Nat × Node)
deriving Repr, DecidableEq

/-- Modelled from the spec: `set_node(node)` encodes the node and writes
through the cache — the page image goes to offset
`page * page_size` of the data file and the decoded node is cached under
its page id. -/
def FileMemory.set_node (conf : TreeConf) (mem : FileMemory) (n : Node) :
    Option FileMemory :=
  n.page.bind fun p =>
  (Node.dump conf n).bind fun d =>
  some { file := writeAt mem.file (p * conf.page_size) d,
         cache := (p, n) :: mem.cache }

/-- Modelled from the spec: `get_node(page_id)` returns the cached
decoded node on a cache hit; on a miss it reads `page_size` bytes at
offset `page_id * page_size`, fails with `ReachedEndOfFile` if the read
runs past the current file length, else decodes the page. -/
def FileMemory.get_node (conf : TreeConf) (mem : FileMemory) (page : Nat) :
    Except MemError Node :=
  match mem.cache.lookup page with
  | some n => .ok n
  | none =>
    let start := page * conf.page_size
    let stop := start + conf.page_size
    if mem.file.length < stop then .error .reachedEndOfFile
    else
      match Node.from_page_data conf (pySlice mem.file start stop)
          (some page) with
      | some n => .ok n
      | none => .error .decodeError

/-- C3 (spec-modelled): after `set_node(n)` succeeds, `get_node(n.page)`
returns the node `n` itself (write-through cache hit); and `get_node` on
any uncached page lying past the current file length fails with
`ReachedEndOfFile`. -/
theorem C3_get_node_set_node (conf : TreeConf) (mem mem' : FileMemory)
    (n : Node) (p : Nat) (hp : n.page = some p)
    (hset : FileMemory.set_node conf mem n = some mem') :
    FileMemory.get_node conf mem' p = Except.ok n ∧
    ∀ q, mem.cache.lookup q = none →
      mem.file.length < q * conf.page_size + conf.page_size →
      FileMemory.get_node conf mem q = Except.error .reachedEndOfFile := by
  constructor
  · rw [FileMemory.set_node, hp] at hset
    simp only [Option.some_bind] at hset
    cases hd : Node.dump conf n with
    | none => rw [hd] at hset; cases hset
    | some d =>
      rw [hd] at hset
      simp only [Option.some_bind, Option.some.injEq] at hset
      rw [← hset]
      simp [FileMemory.get_node, List.lookup]
  · intro q hq hlen
    rw [FileMemory.get_node, hq]
    rw [if_pos hlen]

/-- The one-record leaf placed on page 1, for the C3 witness. -/
def nodeW : Node := ⟨4, [NEntry.record ⟨7, some [9], none⟩], some 1, none⟩

/-- Witness for C3: setting `nodeW` on an empty store caches it so
`get_node 1` returns it, and reading the never-written page 5 of the
empty store reaches end of file. -/
theorem C3_get_node_set_node_witness :
    FileMemory.get_node confN
      ⟨writeAt ([] : List Nat) (1 * confN.page_size) dataN, [(1, nodeW)]⟩ 1
      = Except.ok nodeW ∧
    FileMemory.get_node confN ⟨[], []⟩ 5
      = Except.error MemError.reachedEndOfFile :=
  ⟨(C3_get_node_set_node confN ⟨[], []⟩ _ nodeW 1 rfl (by decide)).1,
   (C3_get_node_set_node confN ⟨[], []⟩
      ⟨writeAt ([] : List Nat) (1 * confN.page_size) dataN, [(1, nodeW)]⟩
      nodeW 1 rfl (by decide)).2 5 rfl (by decide)⟩

/-- Witness for C6: inserting key 3 between keys 1 and 5 patches both
neighbours and keeps the chain consistent. -/
theorem C6_insert_chain_witness :
    chainOk (ReferenceNode.insert_entry
      [⟨1, some 10, some 20⟩, ⟨5, some 20, some 40⟩]
      ⟨3, some 20, some 25⟩) = true :=
  C6_insert_chain [⟨1, some 10, some 20⟩, ⟨5, some 20, some 40⟩]
    ⟨3, some 20, some 25⟩
    (by simp [List.chain'_cons, List.chain'_singleton]) (by decide) (by decide)

end GBPlusTree
